import Mathlib

/-!
Shallow embedding of the S-DES implementation in `s_des.py`.

Bit strings (Python strings over the characters '0'/'1') are modelled as
`List Bool`, most-significant bit first, with `true` for '1' and `false`
for '0'.  Python slicing `s[n:]`/`s[:n]` is `List.drop`/`List.take`
(both clamp out-of-range indices exactly as Python slices do), and
`zip`-based pairwise iteration is `List.zipWith` (which truncates to the
shorter operand, exactly as Python's `zip` does).
-/

namespace SDES

/-- Table `P10` from the source. -/
def P10 : List Nat := [3, 5, 2, 7, 4, 10, 1, 9, 8, 6]

/-- Table `P8` from the source. -/
def P8 : List Nat := [6, 3, 7, 4, 8, 5, 10, 9]

/-- Table `IP` from the source. -/
def IP : List Nat := [2, 6, 3, 1, 4, 8, 5, 7]

/-- Table `IP_INV` from the source. -/
def IP_INV : List Nat := [4, 1, 3, 5, 7, 2, 8, 6]

/-- Table `EP` from the source. -/
def EP : List Nat := [4, 1, 2, 3, 2, 3, 4, 1]

/-- Table `P4` from the source. -/
def P4 : List Nat := [2, 4, 3, 1]

/-- S-box `S0` from the source. -/
def S0 : List (List Nat) := [[1, 0, 3, 2], [3, 2, 1, 0], [0, 2, 1, 3], [3, 1, 3, 2]]

/-- S-box `S1` from the source. -/
def S1 : List (List Nat) := [[0, 1, 2, 3], [2, 0, 1, 3], [3, 0, 1, 0], [2, 1, 0, 3]]

/-- `permute(bits, table)`: output[i] = bits[table[i] - 1] (1-based indices).
Python's `bits[i-1]` on the in-range indices used by the program is
`List.getD (i - 1) false` here. -/
def permute (bits : List Bool) (table : List Nat) : List Bool :=
  table.map (fun i => bits.getD (i - 1) false)

/-- `left_shift(bits, n)`: the source computes `bits[n:] + bits[:n]`. -/
def left_shift (bits : List Bool) (n : Nat) : List Bool :=
  bits.drop n ++ bits.take n

/-- `xor(a, b)`: `'0' if x == y else '1'` pairwise over `zip(a, b)`;
`zip` truncates to the shorter operand. -/
def xor (a b : List Bool) : List Bool :=
  List.zipWith (fun x y => x != y) a b

/-- Numeric value of one bit character, used to build Python's
`int(c1 + c2, 2)` two-bit reads in `sbox_lookup`. -/
def bitVal (b : Bool) : Nat := if b then 1 else 0

/-- `sbox_lookup(bits4, sbox)`: `row = int(bits4[0] + bits4[3], 2)`,
`col = int(bits4[1:3], 2)`, `val = sbox[row][col]`,
result `format(val, '02b')`.  Every entry of `S0`/`S1` is below 4, so
`format(val, '02b')` is exactly the two bits `[val / 2 % 2, val % 2]`. -/
def sbox_lookup (bits4 : List Bool) (sbox : List (List Nat)) : List Bool :=
  let row := 2 * bitVal (bits4.getD 0 false) + bitVal (bits4.getD 3 false)
  let col := 2 * bitVal (bits4.getD 1 false) + bitVal (bits4.getD 2 false)
  let val := (sbox.getD row []).getD col 0
  [val / 2 % 2 == 1, val % 2 == 1]

/-- The round function `fk(bits8, subkey8)` from the source. -/
def fk (bits8 : List Bool) (subkey8 : List Bool) : List Bool :=
  let L := bits8.take 4
  let R := bits8.drop 4
  let ER := permute R EP
  let x := xor ER subkey8
  let left4 := x.take 4
  let right4 := x.drop 4
  let s_out := sbox_lookup left4 S0 ++ sbox_lookup right4 S1
  let p4 := permute s_out P4
  let newL := xor L p4
  newL ++ R

/-- `generate_subkeys(key10)` from the source. -/
def generate_subkeys (key10 : List Bool) : List Bool × List Bool :=
  let p10 := permute key10 P10
  let L := p10.take 5
  let R := p10.drop 5
  let L1 := left_shift L 1
  let R1 := left_shift R 1
  let K1 := permute (L1 ++ R1) P8
  let L2 := left_shift L1 2
  let R2 := left_shift R1 2
  let K2 := permute (L2 ++ R2) P8
  (K1, K2)

/-- `encrypt(plaintext8, key10)` from the source. -/
def encrypt (plaintext8 : List Bool) (key10 : List Bool) : List Bool :=
  let K1 := (generate_subkeys key10).1
  let K2 := (generate_subkeys key10).2
  let ip := permute plaintext8 IP
  let r1 := fk ip K1
  let swapped := r1.drop 4 ++ r1.take 4
  let r2 := fk swapped K2
  permute r2 IP_INV

/-- `decrypt(cipher8, key10)` from the source: identical to `encrypt`
except the subkeys are used in reverse order. -/
def decrypt (cipher8 : List Bool) (key10 : List Bool) : List Bool :=
  let K1 := (generate_subkeys key10).1
  let K2 := (generate_subkeys key10).2
  let ip := permute cipher8 IP
  let r1 := fk ip K2
  let swapped := r1.drop 4 ++ r1.take 4
  let r2 := fk swapped K1
  permute r2 IP_INV

/-- The circular left rotation the specification describes for
`left_shift`: the shift amount is reduced modulo the input length.
Stated from the spec's words, for comparison with `left_shift`. -/
def rotl_spec (bits : List Bool) (n : Nat) : List Bool :=
  bits.drop (n % bits.length) ++ bits.take (n % bits.length)

/-- The nonlinear function applied to the right half inside `fk`
(expansion, subkey mix, S-boxes, P4); named here for the proofs, the
source inlines it in `fk`. -/
def Fround (R subkey8 : List Bool) : List Bool :=
  let x := xor (permute R EP) subkey8
  permute (sbox_lookup (x.take 4) S0 ++ sbox_lookup (x.drop 4) S1) P4

theorem fk_eq (x k : List Bool) :
    fk x k = xor (x.take 4) (Fround (x.drop 4) k) ++ x.drop 4 := rfl

theorem Fround_length (R k : List Bool) : (Fround R k).length = 4 := rfl

theorem xor_length (a b : List Bool) : (xor a b).length = min a.length b.length :=
  List.length_zipWith _ a b

theorem xor_cancel (a b : List Bool) (h : a.length ≤ b.length) :
    xor (xor a b) b = a := by
  induction a generalizing b with
  | nil => simp [xor]
  | cons x a ih =>
    cases b with
    | nil => simp at h
    | cons y b =>
      simp only [xor, List.zipWith] at *
      have hx : ((x != y) != y) = x := by cases x <;> cases y <;> rfl
      simp [hx, ih b (by simpa using h)]

theorem xor_getD (a b : List Bool) :
    ∀ i, i < (xor a b).length →
      (xor a b).getD i false = ((a.getD i false) != (b.getD i false)) := by
  induction a generalizing b with
  | nil => intro i hi; simp [xor] at hi
  | cons x a ih =>
    intro i hi
    cases b with
    | nil => simp [xor] at hi
    | cons y b =>
      cases i with
      | zero => rfl
      | succ j =>
        simp only [xor, List.zipWith] at hi ⊢
        exact ih b j (by rw [xor_length]; exact lt_min_iff.mpr (by simpa using hi))

theorem fk_length (x k : List Bool) (hx : x.length = 8) : (fk x k).length = 8 := by
  rw [fk_eq]
  simp [xor_length, Fround_length, List.length_take, List.length_drop, hx]

theorem fk_involutive (x k : List Bool) (hx : x.length = 8) :
    fk (fk x k) k = x := by
  have hL : (x.take 4).length = 4 := by simp [List.length_take, hx]
  have hxor : (xor (x.take 4) (Fround (x.drop 4) k)).length = 4 := by
    rw [xor_length, Fround_length, hL]; rfl
  rw [fk_eq, fk_eq, List.take_left' hxor, List.drop_left' hxor,
    xor_cancel _ _ (by rw [Fround_length, hL]), List.take_append_drop]

theorem swap_swap (y : List Bool) (hy : y.length = 8) :
    (y.drop 4 ++ y.take 4).drop 4 ++ (y.drop 4 ++ y.take 4).take 4 = y := by
  have h4 : (y.drop 4).length = 4 := by simp [List.length_drop, hy]
  rw [List.take_left' h4, List.drop_left' h4, List.take_append_drop]

theorem permute_IP_length (x : List Bool) : (permute x IP).length = 8 := rfl

theorem len4_exists (l : List Bool) (h : l.length = 4) :
    ∃ a b c d, l = [a, b, c, d] := by
  obtain ⟨a, l, rfl⟩ := List.exists_of_length_succ l h
  obtain ⟨b, l, rfl⟩ := List.exists_of_length_succ l (by simpa using h)
  obtain ⟨c, l, rfl⟩ := List.exists_of_length_succ l (by simpa using h)
  obtain ⟨d, l, rfl⟩ := List.exists_of_length_succ l (by simpa using h)
  have hnil : l = [] := by simpa using h
  exact ⟨a, b, c, d, by rw [hnil]⟩

theorem len8_exists (l : List Bool) (h : l.length = 8) :
    ∃ a b c d e f g i, l = [a, b, c, d, e, f, g, i] := by
  obtain ⟨a, l, rfl⟩ := List.exists_of_length_succ l h
  obtain ⟨b, l, rfl⟩ := List.exists_of_length_succ l (by simpa using h)
  obtain ⟨c, l, rfl⟩ := List.exists_of_length_succ l (by simpa using h)
  obtain ⟨d, l, rfl⟩ := List.exists_of_length_succ l (by simpa using h)
  obtain ⟨e, l, rfl⟩ := List.exists_of_length_succ l (by simpa using h)
  obtain ⟨f, l, rfl⟩ := List.exists_of_length_succ l (by simpa using h)
  obtain ⟨g, l, rfl⟩ := List.exists_of_length_succ l (by simpa using h)
  obtain ⟨i, l, rfl⟩ := List.exists_of_length_succ l (by simpa using h)
  have hnil : l = [] := by simpa using h
  exact ⟨a, b, c, d, e, f, g, i, by rw [hnil]⟩

theorem len10_exists (l : List Bool) (h : l.length = 10) :
    ∃ a b c d e f g i j m, l = [a, b, c, d, e, f, g, i, j, m] := by
  obtain ⟨a, l, rfl⟩ := List.exists_of_length_succ l h
  obtain ⟨b, l, rfl⟩ := List.exists_of_length_succ l (by simpa using h)
  obtain ⟨c, l, rfl⟩ := List.exists_of_length_succ l (by simpa using h)
  obtain ⟨d, l, rfl⟩ := List.exists_of_length_succ l (by simpa using h)
  obtain ⟨e, l, rfl⟩ := List.exists_of_length_succ l (by simpa using h)
  obtain ⟨f, l, rfl⟩ := List.exists_of_length_succ l (by simpa using h)
  obtain ⟨g, l, rfl⟩ := List.exists_of_length_succ l (by simpa using h)
  obtain ⟨i, l, rfl⟩ := List.exists_of_length_succ l (by simpa using h)
  obtain ⟨j, l, rfl⟩ := List.exists_of_length_succ l (by simpa using h)
  obtain ⟨m, l, rfl⟩ := List.exists_of_length_succ l (by simpa using h)
  have hnil : l = [] := by simpa using h
  exact ⟨a, b, c, d, e, f, g, i, j, m, by rw [hnil]⟩

theorem permute_IP_IPINV (x : List Bool) (hx : x.length = 8) :
    permute (permute x IP) IP_INV = x := by
  obtain ⟨a, b, c, d, e, f, g, i, rfl⟩ := len8_exists x hx
  rfl

theorem permute_IPINV_IP (x : List Bool) (hx : x.length = 8) :
    permute (permute x IP_INV) IP = x := by
  obtain ⟨a, b, c, d, e, f, g, i, rfl⟩ := len8_exists x hx
  rfl

/-- Claim C1: for every 8-character binary plaintext P and every
10-character binary key K, `decrypt(encrypt(P, K), K) == P`. -/
theorem C1_decrypt_encrypt_roundtrip (P K : List Bool)
    (hP : P.length = 8) (hK : K.length = 10) :
    decrypt (encrypt P K) K = P := by
  simp only [encrypt, decrypt]
  have hip : (permute P IP).length = 8 := permute_IP_length P
  have h1 : (fk (permute P IP) (generate_subkeys K).1).length = 8 := fk_length _ _ hip
  have hsw : ((fk (permute P IP) (generate_subkeys K).1).drop 4 ++
      (fk (permute P IP) (generate_subkeys K).1).take 4).length = 8 := by
    simp [List.length_drop, List.length_take, h1]
  have h2 : (fk ((fk (permute P IP) (generate_subkeys K).1).drop 4 ++
      (fk (permute P IP) (generate_subkeys K).1).take 4)
      (generate_subkeys K).2).length = 8 := fk_length _ _ hsw
  rw [permute_IPINV_IP _ h2, fk_involutive _ _ hsw, swap_swap _ h1,
    fk_involutive _ _ hip, permute_IP_IPINV _ hP]

/-- Witness for C1 at the textbook plaintext and key. -/
theorem C1_roundtrip_witness :
    decrypt (encrypt [true, true, false, true, false, true, true, true]
        [true, false, true, false, false, false, false, false, true, false])
      [true, false, true, false, false, false, false, false, true, false] =
      [true, true, false, true, false, true, true, true] :=
  C1_decrypt_encrypt_roundtrip _ _ (by decide) (by decide)

/-- Claim C2: `encrypt("11010111", "1010000010") = "10101000"` and
`decrypt("10101000", "1010000010") = "11010111"`. -/
theorem C2_known_vector :
    encrypt [true, true, false, true, false, true, true, true]
      [true, false, true, false, false, false, false, false, true, false] =
      [true, false, true, false, true, false, false, false] ∧
    decrypt [true, false, true, false, true, false, false, false]
      [true, false, true, false, false, false, false, false, true, false] =
      [true, true, false, true, false, true, true, true] :=
  ⟨rfl, rfl⟩

/-- Claim C3: for every 8-character binary X,
`permute(permute(X, IP), IP_INV) == X`, and the tables IP and IP_INV are
mutually inverse permutations of 8 positions (the reverse composition is
the identity as well). -/
theorem C3_IP_mutual_inverse (X : List Bool) (hX : X.length = 8) :
    permute (permute X IP) IP_INV = X ∧ permute (permute X IP_INV) IP = X :=
  ⟨permute_IP_IPINV X hX, permute_IPINV_IP X hX⟩

/-- Witness for C3 at a concrete 8-bit block. -/
theorem C3_IP_witness :
    permute (permute [true, false, false, true, true, false, true, false] IP) IP_INV =
      [true, false, false, true, true, false, true, false] :=
  (C3_IP_mutual_inverse _ (by decide)).1

/-- Counterexample to claim C4: `left_shift` does not reduce the shift
amount modulo the input length.  At bits = "01" and n = 3 the source
returns "01" (Python slices clamp, so `bits[3:] + bits[:3] = bits`),
while rotation by 3 mod 2 = 1 gives "10". -/
theorem C4_counterexample :
    ¬ (left_shift [false, true] 3 = rotl_spec [false, true] 3) := by decide

/-- Claim C4 as amended: `left_shift(bits, n)` always preserves the
length; for n ≤ len(bits) it is the circular left rotation by n (equal
to rotation by n mod len); for n ≥ len(bits) it returns bits unchanged
(the shift amount is clamped, not reduced modulo the length). -/
theorem C4_left_shift_amended (bits : List Bool) (n : Nat) :
    (left_shift bits n).length = bits.length ∧
    (n ≤ bits.length → left_shift bits n = rotl_spec bits n) ∧
    (bits.length ≤ n → left_shift bits n = bits) := by
  refine ⟨?_, ?_, ?_⟩
  · simp [left_shift]; omega
  · intro h
    rcases Nat.lt_or_ge n bits.length with hlt | hge
    · unfold left_shift rotl_spec
      rw [Nat.mod_eq_of_lt hlt]
    · have heq : n = bits.length := le_antisymm h hge
      subst heq
      simp [left_shift, rotl_spec, Nat.mod_self, List.drop_length, List.take_length]
  · intro h
    rw [left_shift, List.drop_eq_nil_of_le h, List.take_of_length_le h]
    simp

/-- Witness for the amended C4: rotation behaviour below the length and
clamping at n = 5 > 2. -/
theorem C4_left_shift_witness :
    (left_shift [true, false, false] 2).length = 3 ∧
    left_shift [true, false, false] 2 = rotl_spec [true, false, false] 2 ∧
    left_shift [true, false] 5 = [true, false] :=
  ⟨(C4_left_shift_amended [true, false, false] 2).1,
   (C4_left_shift_amended [true, false, false] 2).2.1 (by decide),
   (C4_left_shift_amended [true, false] 5).2.2 (by decide)⟩

/-- Claim C5: for 8-bit input and 8-bit subkey, `fk` leaves the right
half unchanged, maps the left half to
`xor(L, permute(sbox(xor(permute(R, EP), subkey)), P4))`, and returns 8
bits. -/
theorem C5_fk_frame (x k : List Bool) (hx : x.length = 8) (hk : k.length = 8) :
    (fk x k).drop 4 = x.drop 4 ∧
    (fk x k).take 4 =
      xor (x.take 4)
        (permute (sbox_lookup ((xor (permute (x.drop 4) EP) k).take 4) S0 ++
                  sbox_lookup ((xor (permute (x.drop 4) EP) k).drop 4) S1) P4) ∧
    (fk x k).length = 8 := by
  have hL : (x.take 4).length = 4 := by simp [List.length_take, hx]
  have hxor : (xor (x.take 4) (Fround (x.drop 4) k)).length = 4 := by
    rw [xor_length, Fround_length, hL]; rfl
  exact ⟨by rw [fk_eq, List.drop_left' hxor],
         by rw [fk_eq, List.take_left' hxor]; rfl,
         fk_length x k hx⟩

/-- Witness for C5: the right half passes through on a concrete input. -/
theorem C5_fk_frame_witness :
    (fk [true, true, false, true, true, true, false, true]
        [true, false, true, false, false, true, false, false]).drop 4 =
      [true, true, false, true, true, true, false, true].drop 4 :=
  (C5_fk_frame _ _ (by decide) (by decide)).1

/-- Claim C6: `generate_subkeys(K)` returns
(P8(rot1(L) ++ rot1(R)), P8(rot3(L) ++ rot3(R))) where L, R are the
5-bit halves of P10(K) — the two shifts applied for K2 are cumulative,
a rotation by 3 relative to the original halves — and both subkeys are
8 characters long. -/
theorem C6_generate_subkeys_spec (K : List Bool) (hK : K.length = 10) :
    generate_subkeys K =
      (permute (left_shift ((permute K P10).take 5) 1 ++
                left_shift ((permute K P10).drop 5) 1) P8,
       permute (left_shift ((permute K P10).take 5) 3 ++
                left_shift ((permute K P10).drop 5) 3) P8) ∧
    (generate_subkeys K).1.length = 8 ∧ (generate_subkeys K).2.length = 8 := by
  obtain ⟨a, b, c, d, e, f, g, i, j, m, rfl⟩ := len10_exists K hK
  exact ⟨rfl, rfl, rfl⟩

/-- Witness for C6 at the textbook key. -/
theorem C6_generate_subkeys_witness :
    (generate_subkeys
      [true, false, true, false, false, false, false, false, true, false]).1.length = 8 ∧
    (generate_subkeys
      [true, false, true, false, false, false, false, false, true, false]).2.length = 8 :=
  ⟨(C6_generate_subkeys_spec _ (by decide)).2.1,
   (C6_generate_subkeys_spec _ (by decide)).2.2⟩

/-- Claim C7: for all bit strings a and b, `xor(a, b)` has length
min(len(a), len(b)) — silently truncating to the shorter operand when
the lengths differ — and its i-th bit is '1' exactly when the i-th bits
of a and b differ. -/
theorem C7_xor_spec (a b : List Bool) :
    (xor a b).length = min a.length b.length ∧
    ∀ i, i < (xor a b).length →
      (xor a b).getD i false = ((a.getD i false) != (b.getD i false)) :=
  ⟨xor_length a b, xor_getD a b⟩

/-- Witness for C7 on operands of unequal length (3 and 2). -/
theorem C7_xor_witness :
    (xor [true, false, true] [true, true]).length = min 3 2 ∧
    (xor [true, false, true] [true, true]).getD 1 false =
      (([true, false, true].getD 1 false) != ([true, true].getD 1 false)) :=
  ⟨(C7_xor_spec [true, false, true] [true, true]).1,
   (C7_xor_spec [true, false, true] [true, true]).2 1 (by decide)⟩

/-- Claim C8: for every 4-character binary input, the row index (bits 0
and 3) and column index (bits 1 and 2) computed by `sbox_lookup` are
below 4, so the 4x4 table access stays in bounds; the value read from
S0 or S1 is in {0, 1, 2, 3}; and the result is 2 characters long. -/
theorem C8_sbox_lookup_safe (b : List Bool) (hb : b.length = 4) :
    (2 * bitVal (b.getD 0 false) + bitVal (b.getD 3 false)) < 4 ∧
    (2 * bitVal (b.getD 1 false) + bitVal (b.getD 2 false)) < 4 ∧
    (S0.getD (2 * bitVal (b.getD 0 false) + bitVal (b.getD 3 false)) []).getD
      (2 * bitVal (b.getD 1 false) + bitVal (b.getD 2 false)) 0 < 4 ∧
    (S1.getD (2 * bitVal (b.getD 0 false) + bitVal (b.getD 3 false)) []).getD
      (2 * bitVal (b.getD 1 false) + bitVal (b.getD 2 false)) 0 < 4 ∧
    (sbox_lookup b S0).length = 2 ∧ (sbox_lookup b S1).length = 2 := by
  obtain ⟨p, q, r, s, rfl⟩ := len4_exists b hb
  cases p <;> cases q <;> cases r <;> cases s <;> decide

/-- Witness for C8 at input "1011". -/
theorem C8_sbox_lookup_witness :
    (sbox_lookup [true, false, true, true] S0).length = 2 ∧
    (sbox_lookup [true, false, true, true] S1).length = 2 :=
  ⟨(C8_sbox_lookup_safe _ (by decide)).2.2.2.2.1,
   (C8_sbox_lookup_safe _ (by decide)).2.2.2.2.2⟩

/-- Claim C9: for 8-bit x and 8-bit subkey k, `fk(fk(x, k), k) == x`:
the round function with a fixed subkey is an involution. -/
theorem C9_fk_involution (x k : List Bool) (hx : x.length = 8) (hk : k.length = 8) :
    fk (fk x k) k = x :=
  fk_involutive x k hx

/-- Witness for C9 at a concrete block and subkey. -/
theorem C9_fk_involution_witness :
    fk (fk [true, false, false, true, false, true, true, false]
           [false, true, true, false, true, false, false, true])
       [false, true, true, false, true, false, false, true] =
      [true, false, false, true, false, true, true, false] :=
  C9_fk_involution _ _ (by decide) (by decide)

/-- Claim C10: for every 8-character binary ciphertext C and every
10-character binary key K, `encrypt(decrypt(C, K), K) == C`, so encrypt
and decrypt are mutually inverse bijections on 8-bit blocks. -/
theorem C10_encrypt_decrypt_roundtrip (C K : List Bool)
    (hC : C.length = 8) (hK : K.length = 10) :
    encrypt (decrypt C K) K = C := by
  simp only [encrypt, decrypt]
  have hip : (permute C IP).length = 8 := permute_IP_length C
  have h1 : (fk (permute C IP) (generate_subkeys K).2).length = 8 := fk_length _ _ hip
  have hsw : ((fk (permute C IP) (generate_subkeys K).2).drop 4 ++
      (fk (permute C IP) (generate_subkeys K).2).take 4).length = 8 := by
    simp [List.length_drop, List.length_take, h1]
  have h2 : (fk ((fk (permute C IP) (generate_subkeys K).2).drop 4 ++
      (fk (permute C IP) (generate_subkeys K).2).take 4)
      (generate_subkeys K).1).length = 8 := fk_length _ _ hsw
  rw [permute_IPINV_IP _ h2, fk_involutive _ _ hsw, swap_swap _ h1,
    fk_involutive _ _ hip, permute_IP_IPINV _ hC]

/-- Witness for C10 at the textbook ciphertext and key. -/
theorem C10_roundtrip_witness :
    encrypt (decrypt [true, false, true, false, true, false, false, false]
        [true, false, true, false, false, false, false, false, true, false])
      [true, false, true, false, false, false, false, false, true, false] =
      [true, false, true, false, true, false, false, false] :=
  C10_encrypt_decrypt_roundtrip _ _ (by decide) (by decide)

end SDES
